import Mathlib

/-!
Shallow embedding of the animation translator (`main.go`): a tokenizer for
`show`/`hide`/`wait` script lines, a timeline compiler producing per-object
opacity keyframes, a CSS emitter, and raw-text CSS injection into an SVG
string.

Modelling conventions:
* Go `int` is 64-bit with wrapping (two's-complement) addition; the `totalMs`
  accumulation models this faithfully via `wrap64`.  `strconv.Atoi`'s
  documented clamping on range errors is also modelled, because the clamped
  value is returned to the caller even when the error is non-nil.
* Go `float32` arithmetic on stages is modelled by exact rationals `ℚ`.  The
  concrete inputs used to settle claims evaluate to small dyadically exact
  values, on which the two semantics coincide, and the universal ordering
  statement proved about the walk (claim C4) uses only the sign of each
  cursor advance and the monotonicity of addition — properties that IEEE
  round-to-nearest preserves (rounding is monotone, maps non-negative reals
  to non-negative floats, and fixes every previously computed float) — never
  the exactness of the values.  The IEEE division by zero in `calculateStep`
  (which yields `+Inf`) is modelled by `none`.
* A Go runtime panic (index out of range) is modelled by `none`.
* The Go `map[string][]keyframe` is modelled by an association list; per-key
  contents match the Go program exactly, and the (unspecified) map iteration
  order of the emitter is received explicitly as the order of the list.
-/

/-- Source `tokenType` enum.  The source constants are named `show`, `hide`,
`wait`; `show` is a Lean keyword, so the constructors carry a `t` marker. -/
inductive tokenType
  | tshow
  | thide
  | twait
  deriving DecidableEq

/-- Source constant `defaultWait = 1000`. -/
def defaultWait : Int := 1000

/-- Source struct `token`.  The field `Type` is renamed `type` (`Type` is a
Lean keyword). -/
structure token where
  type : tokenType
  Id : String
  Wait : Int
  deriving DecidableEq

/-- Embedding of Go `strings.Split(line, " ")` on a single-space separator:
splits at every occurrence of `' '`, keeping empty fields. -/
def splitSp : List Char → List (List Char)
  | [] => [[]]
  | c :: rest =>
      let r := splitSp rest
      if c = ' ' then [] :: r else (c :: r.headD []) :: r.tail

/-- Embedding of `parseShow`.  `tokens[1]` panics (modelled `none`) when the
split line has no second field; otherwise the token gets `Wait: defaultWait`. -/
def parseShow (line : String) : Option token :=
  match splitSp line.toList with
  | _ :: f :: _ => some ⟨tokenType.tshow, String.mk f, defaultWait⟩
  | _ => none

/-- Embedding of `parseHide`, symmetric to `parseShow`. -/
def parseHide (line : String) : Option token :=
  match splitSp line.toList with
  | _ :: f :: _ => some ⟨tokenType.thide, String.mk f, defaultWait⟩
  | _ => none

/-- Decimal digit value used by the `strconv.Atoi` model. -/
def digVal (c : Char) : Option Nat :=
  if c.isDigit then some (c.toNat - 48) else none

/-- Accumulates decimal digits left to right; `none` on any non-digit. -/
def digitsToNatAux : Option Nat → List Char → Option Nat
  | acc, [] => acc
  | acc, c :: rest =>
      digitsToNatAux (acc.bind fun n => (digVal c).map fun d => n * 10 + d) rest

/-- Value of a non-empty all-digit string; `none` otherwise. -/
def digitsToNat (cs : List Char) : Option Nat :=
  if cs.isEmpty then none else digitsToNatAux (some 0) cs

/-- Syntactic part of `strconv.Atoi` (i.e. `strconv.ParseInt(s, 10, 64)`):
an optional sign followed by a non-empty run of decimal digits.  Returns the
unbounded value; range clamping is applied by `atoiVal`. -/
def atoiCore (s : String) : Option Int :=
  match s.toList with
  | '+' :: rest => (digitsToNat rest).map (fun n => (n : Int))
  | '-' :: rest => (digitsToNat rest).map (fun n => -(n : Int))
  | cs => (digitsToNat cs).map (fun n => (n : Int))

/-- Largest Go `int` (64-bit). -/
def intMax64 : Int := 2 ^ 63 - 1

/-- Smallest Go `int` (64-bit). -/
def intMin64 : Int := -(2 ^ 63)

/-- The value `strconv.Atoi` returns: `0` on syntax error, the clamped
maximum-magnitude integer on range error, the parsed value otherwise. -/
def atoiVal (s : String) : Int :=
  match atoiCore s with
  | none => 0
  | some v => if v > intMax64 then intMax64 else if v < intMin64 then intMin64 else v

/-- Whether `strconv.Atoi` returns a nil error on `s`. -/
def atoiOk (s : String) : Bool :=
  match atoiCore s with
  | none => false
  | some v => decide (intMin64 ≤ v) && decide (v ≤ intMax64)

/-- Embedding of `parseWait`.  The `Bool` records whether the
`"Error parsing wait: ..."` message was printed (`strconv.Atoi` returned a
non-nil error); the function still returns the token built from the value
`Atoi` produced.  `none` models the index-out-of-range panic on `tokens[1]`
when the line has no second field. -/
def parseWait (line : String) : Option (Bool × token) :=
  match splitSp line.toList with
  | _ :: f :: _ =>
      some (!(atoiOk (String.mk f)), ⟨tokenType.twait, "", atoiVal (String.mk f)⟩)
  | _ => none

/-- Two's-complement reduction of an integer into the signed 64-bit range
`[-2^63, 2^63)`, modelling the result of Go's wrapping `int` addition. -/
def wrap64 (n : Int) : Int := (n + 2 ^ 63) % 2 ^ 64 - 2 ^ 63

/-- The `totalMs` accumulation loop inside `calculateStep`.  Each
`totalMs += t.Wait` is a Go 64-bit signed addition, which wraps on overflow;
`wrap64` applies that reduction at every step. -/
def totalWaitMs (tokens : List token) : Int :=
  tokens.foldl (fun acc t => if t.type = tokenType.twait then wrap64 (acc + t.Wait) else acc) 0

/-- Embedding of `calculateStep`: returns `1000.0 / float32(totalMs) * 100.0`
paired with `totalMs`.  When `totalMs = 0` the float32 division yields `+Inf`,
which the `ℚ` model represents as `none`.  No error of any kind is raised by
the source function.  The `some` branch carries the exact rational where Go
rounds each operation to float32; the theorems below use only its sign (which
rounding preserves) and its value at dyadically exact concrete inputs (where
the float32 computation is exact). -/
def calculateStep (tokens : List token) : Option ℚ × Int :=
  let totalMs := totalWaitMs tokens
  (if totalMs = 0 then none else some (1000 / (totalMs : ℚ) * 100), totalMs)

/-- Source struct `keyframe` (`float32` fields modelled by `ℚ`). -/
structure keyframe where
  Stage : ℚ
  Opacity : ℚ
  deriving DecidableEq

/-- Loop state of `calculateKeyframes`: the cursor `currentStage`, its
companion `nextStage`, and the keyframe map (as an association list in
first-reference order). -/
structure KState where
  cur : ℚ
  nxt : ℚ
  kfs : List (String × List keyframe)

/-- Association-list lookup, modelling `keyframes[t.Id]` map access. -/
def lookupKf : List (String × List keyframe) → String → Option (List keyframe)
  | [], _ => none
  | (k, v) :: rest, id => if k = id then some v else lookupKf rest id

/-- Association-list update modelling `keyframes[id] = append(keyframes[id], kf)`. -/
def appendTo : List (String × List keyframe) → String → keyframe → List (String × List keyframe)
  | [], id, kf => [(id, [kf])]
  | (k, v) :: rest, id, kf =>
      if k = id then (k, v ++ [kf]) :: rest else (k, v) :: appendTo rest id kf

/-- One iteration of the instruction walk in `calculateKeyframes`: seed the
object's list with `{0, 0}` on first reference, then advance the cursor on
`wait` or append the `{currentStage, _}`/`{nextStage, _}` pair on `show`/`hide`.
The cursor arithmetic is float32 in Go and exact `ℚ` here; the universal
ordering theorem below relies only on each `wait` advancing the cursor by a
non-negative amount, which holds equally for the rounded float32 delta
`float32(t.Wait)/1000.0*step` (rounding maps non-negative values to
non-negative values, and float32 addition of a non-negative delta to a stored
float never decreases it). -/
def stepKf (step : ℚ) (st : KState) (t : token) : KState :=
  let kfs0 :=
    if t.type = tokenType.tshow ∨ t.type = tokenType.thide then
      match lookupKf st.kfs t.Id with
      | some _ => st.kfs
      | none => st.kfs ++ [(t.Id, [⟨0, 0⟩])]
    else st.kfs
  match t.type with
  | tokenType.twait =>
      let c := st.cur + (t.Wait : ℚ) / 1000 * step
      ⟨c, c + step, kfs0⟩
  | tokenType.tshow =>
      ⟨st.cur, st.nxt, appendTo (appendTo kfs0 t.Id ⟨st.cur, 0⟩) t.Id ⟨st.nxt, 1⟩⟩
  | tokenType.thide =>
      ⟨st.cur, st.nxt, appendTo (appendTo kfs0 t.Id ⟨st.cur, 1⟩) t.Id ⟨st.nxt, 0⟩⟩

/-- The closing append of `calculateKeyframes`:
`keyframes[k] = append(v, keyframe{Stage: 100.0, Opacity: v[len(v)-1].Opacity})`.
The source index `v[len(v)-1]` can only be reached with a non-empty list
(every list is seeded on creation); `getLastD` with an unused default models
it. -/
def closeKf (v : List keyframe) : List keyframe :=
  v ++ [⟨100, (v.getLastD ⟨0, 0⟩).Opacity⟩]

/-- Embedding of `calculateKeyframes`: walk the instructions from cursor `0`
(with `nextStage = 0 + step`), then append the closing keyframe
`{100, lastOpacity}` to every object's list. -/
def calculateKeyframes (tokens : List token) (step : ℚ) : List (String × List keyframe) :=
  let final := tokens.foldl (stepKf step) ⟨0, 0 + step, []⟩
  final.kfs.map fun p => (p.1, closeKf p.2)

/-- Source constant `objectIdPrfix` (sic). -/
def objectIdPrfix : String := "cell-"

/-- Source constant holding the generated animation names' stem, `"anim"`. -/
def animNameBase : String := "anim"

/-- Rendering of a `float32` by Go's `%v` template verb, modelled on `ℚ`:
integral values print as integers (the only case exercised by the claims);
non-integral rationals print exactly as `num/den`, standing in for Go's
shortest-decimal form.  Every determinism statement is insensitive to this
fixed choice. -/
def fmtF (q : ℚ) : String :=
  if q.den = 1 then toString q.num else toString q.num ++ "/" ++ toString q.den

/-- One `{{ range .Keyframes }}` iteration of the `keyframes` template. -/
def cssKeyframeEntry (kf : keyframe) : String :=
  fmtF kf.Stage ++ "% \x7b opacity: " ++ fmtF kf.Opacity ++ "; \x7d "

/-- One loop iteration of `generateCssAnimation`: the `animation` rule for the
object followed by its `@keyframes` block, with animation name
`anim<counter>`. -/
def cssEntry (totalMs : Int) (i : Nat) (p : String × List keyframe) : String :=
  let animName := animNameBase ++ toString i
  "#" ++ objectIdPrfix ++ p.1 ++ " \x7b animation: " ++ animName ++ " " ++ toString totalMs
    ++ "ms linear infinite normal forwards; \x7d "
    ++ "@keyframes " ++ animName ++ " \x7b "
    ++ String.join (p.2.map cssKeyframeEntry) ++ "\x7d"

/-- Embedding of `generateCssAnimation`.  The Go `for k, v := range keyframes`
loop visits the map in an unspecified order; the embedding receives that
iteration order as the order of the association list and mirrors the
counter-carrying loop as a fold. -/
def generateCssAnimation (kfs : List (String × List keyframe)) (totalMs : Int) : String :=
  let body :=
    kfs.foldl (fun (st : Nat × String) p => (st.1 + 1, st.2 ++ cssEntry totalMs st.1 p)) (0, "")
  "<style>" ++ body.2 ++ "</style>"

/-- Closed form of the emitter body: the entry at position `i` of the
iteration order is rendered with the counter value `i`.  Comparing
`generateCssAnimation` against this form shows the output is a function of
the iteration order alone. -/
def cssEntriesFrom (totalMs : Int) : Nat → List (String × List keyframe) → String
  | _, [] => ""
  | i, p :: rest => cssEntry totalMs i p ++ cssEntriesFrom totalMs (i + 1) rest

/-- Embedding of `strings.Index(l, pat)`: the first position where `pat` is a
prefix of the remaining text, `none` standing for Go's `-1`. -/
def indexOfSub : List Char → List Char → Option Nat
  | [], pat => if pat.isPrefixOf ([] : List Char) then some 0 else none
  | c :: rest, pat =>
      if pat.isPrefixOf (c :: rest) then some 0
      else (indexOfSub rest pat).map (· + 1)

/-- Offset of the first `'>'`, modelling the `for svg[index] != '>'` scan;
`none` models the scan running past the end of the string (a panic). -/
def scanOff : List Char → Option Nat
  | [] => none
  | c :: rest => if c = '>' then some 0 else (scanOff rest).map (· + 1)

/-- Embedding of `addCssToSvg`.  `strings.Index` returning `-1` makes the
subsequent `svg[index]` access panic, and the `'>'` scan can also run past
the end of the string; both panics are modelled as `none`. -/
def addCssToSvg (svg css : String) : Option String :=
  match indexOfSub svg.toList "<svg".toList with
  | none => none
  | some i =>
      match scanOff (svg.toList.drop i) with
      | none => none
      | some off =>
          let j := i + off + 1
          some (String.mk (svg.toList.take j ++ css.toList ++ svg.toList.drop j))

/-- Observable outcome of `main`'s argument handling. -/
inductive argOutcome
  | usage (exitCode : Nat)
  | indexPanic
  | run (inputSvgFile inputAnimation outputSvgFile : String)
  deriving DecidableEq

/-- Embedding of the argument handling at the top of `main`, applied to
`os.Args` (program name first).  `len(os.Args) < 3` prints the usage message
and returns from `main`, so the process exits with code `0`; otherwise
`os.Args[1]`, `os.Args[2]` and `os.Args[3]` are read, and the last access
panics when `os.Args` has exactly three elements. -/
def mainArgs (args : List String) : argOutcome :=
  if args.length < 3 then argOutcome.usage 0
  else
    match args[1]?, args[2]?, args[3]? with
    | some a, some b, some c => argOutcome.run a b c
    | _, _, _ => argOutcome.indexPanic

/-- The three-line script of claim C5, as tokenized by the source parser. -/
def c5tokens : List token :=
  [⟨tokenType.tshow, "cell1", 1000⟩, ⟨tokenType.twait, "", 1000⟩,
    ⟨tokenType.thide, "cell1", 1000⟩]

/-- Stages of every second keyframe of a list (positions 0, 2, 4, …).  Applied
to the part of an object's list that follows the seed keyframe, this selects
the first keyframe of each appended `show`/`hide` pair — the keyframes placed
at the running cursor — together with the closing keyframe. -/
def fstStages : List keyframe → List ℚ
  | a :: _ :: rest => a.Stage :: fstStages rest
  | [a] => [a.Stage]
  | [] => []

/-- The cursor-position subsequence of an object's keyframe list: the seed
keyframe's stage followed by `fstStages` of the rest. -/
def cursorStages : List keyframe → List ℚ
  | [] => []
  | s :: rest => s.Stage :: fstStages rest

/-- The list is non-decreasing and its last element is at most `c` (hence,
by monotonicity, every element is at most `c`). -/
def ascBnd (c : ℚ) : List ℚ → Prop
  | [] => True
  | [x] => x ≤ c
  | x :: y :: rest => x ≤ y ∧ ascBnd c (y :: rest)

/-- A script with two consecutive `show a` instructions and a closing
`wait 1000`, used to refute claim C4 as stated. -/
def c4tokens : List token :=
  [⟨tokenType.tshow, "a", 1000⟩, ⟨tokenType.tshow, "a", 1000⟩,
    ⟨tokenType.twait, "", 1000⟩]

/-- Walk invariant for claim C4: the cursor is non-negative and every
object's list so far has odd length (seed plus complete pairs) with its
cursor-position stages ascending and bounded by the current cursor. -/
def InvM (st : KState) : Prop :=
  0 ≤ st.cur ∧ ∀ p ∈ st.kfs, p.2.length % 2 = 1 ∧ ascBnd st.cur (cursorStages p.2)

/-- Walk invariant for claim C6: every object's list so far is non-empty and
starts with the seeded stage-0 keyframe. -/
def InvB (st : KState) : Prop :=
  ∀ p ∈ st.kfs, p.2 ≠ [] ∧ (p.2.headD ⟨0, 0⟩).Stage = 0

/-- Claim C1, counterexample: on an instruction sequence whose wait durations
sum to zero, `calculateStep` does not raise any error — it performs the
division by zero (float32 `+Inf`, modelled `none`) and returns normally. -/
theorem c1_counterexample : calculateStep [] = (none, 0) := by decide

/-- Claim C1, amended: whenever the wait durations sum to zero, the compiler
silently returns the non-finite step produced by the division by zero
(modelled `none`) together with `totalMs = 0`; no `EmptyTimelineError`
exists anywhere in the program. -/
theorem c1_amended (tokens : List token) (h : totalWaitMs tokens = 0) :
    calculateStep tokens = (none, 0) := by
  simp [calculateStep, h]

/-- Witness for `c1_amended` at a sequence with one `show` and no waits. -/
theorem c1_witness :
    calculateStep [⟨tokenType.tshow, "a", 1000⟩] = (none, 0) :=
  c1_amended [⟨tokenType.tshow, "a", 1000⟩] (by decide)

/-- Claim C2, counterexample: injecting into a string that contains no `<svg`
substring makes the source scan panic (index out of range, modelled `none`);
no `InjectionError` exists anywhere in the program. -/
theorem c2_counterexample : addCssToSvg "hello" "<style>x</style>" = none := by decide

/-- If the pattern is a prefix of no suffix of `l`, `strings.Index` finds
nothing. -/
theorem indexOfSub_eq_none {l pat : List Char}
    (h : ∀ i, pat.isPrefixOf (l.drop i) = false) : indexOfSub l pat = none := by
  induction l with
  | nil =>
      have h0 := h 0
      simp only [List.drop_zero] at h0
      have hu : indexOfSub [] pat = if pat.isPrefixOf ([] : List Char) then some 0 else none := rfl
      rw [hu, h0]
      simp
  | cons c rest ih =>
      have h0 := h 0
      have h' : ∀ i, pat.isPrefixOf (rest.drop i) = false := by
        intro i
        have := h (i + 1)
        simpa [List.drop_succ_cons] using this
      simp only [List.drop_zero] at h0
      simp [indexOfSub, h0, ih h']

/-- Claim C2, amended: on an SVG string lacking any `<svg` substring the
injection panics (index out of range on `svg[-1]`, modelled `none`) instead
of raising an `InjectionError`. -/
theorem c2_amended (svg css : String)
    (h : ∀ i ≤ svg.toList.length, ("<svg".toList).isPrefixOf (svg.toList.drop i) = false) :
    addCssToSvg svg css = none := by
  have hall : ∀ i, ("<svg".toList).isPrefixOf (svg.toList.drop i) = false := by
    intro i
    by_cases hi : i ≤ svg.toList.length
    · exact h i hi
    · have hnil : svg.toList.drop i = [] := List.drop_eq_nil_of_le (by omega)
      rw [hnil]
      decide
  have hnone := indexOfSub_eq_none hall
  unfold addCssToSvg
  rw [hnone]

/-- Witness for `c2_amended` at the SVG-free string `"hello"`. -/
theorem c2_witness : addCssToSvg "hello" "injected" = none :=
  c2_amended "hello" "injected" (by decide)

/-- Evaluation of the compiler on the three-line script of claim C5. -/
theorem c5_compute :
    calculateStep c5tokens = (some 100, 1000) ∧
      lookupKf (calculateKeyframes c5tokens 100) "cell1" =
        some [⟨0, 0⟩, ⟨0, 0⟩, ⟨100, 1⟩, ⟨100, 1⟩, ⟨200, 0⟩, ⟨100, 0⟩] := by
  constructor
  · have htot : totalWaitMs c5tokens = 1000 := by decide
    simp only [calculateStep, htot]
    norm_num
  · norm_num [calculateKeyframes, c5tokens, List.foldl, stepKf, lookupKf, appendTo,
      closeKf, List.getLastD]

/-- Claim C5, counterexample: the compiled keyframe list of `cell1` for the
script `show cell1` / `wait 1000` / `hide cell1` is not the five-element list
stated by the claim. -/
theorem c5_counterexample :
    lookupKf (calculateKeyframes c5tokens 100) "cell1" ≠
      some [⟨0, 0⟩, ⟨0, 0⟩, ⟨100, 1⟩, ⟨100, 1⟩, ⟨100, 0⟩] := by
  rw [c5_compute.2]
  simp

/-- Claim C5, amended: for that script the compiler computes `step = 100`,
`totalMs = 1000`, and the keyframe list of `cell1` is the six-element list
`[{0,0},{0,0},{100,1},{100,1},{200,0},{100,0}]` — the `hide` pair's second
keyframe lands at `nextStage = 200`, and the closing `{100,0}` keyframe is
appended after it. -/
theorem c5_amended :
    calculateStep c5tokens = (some 100, 1000) ∧
      lookupKf (calculateKeyframes c5tokens 100) "cell1" =
        some [⟨0, 0⟩, ⟨0, 0⟩, ⟨100, 1⟩, ⟨100, 1⟩, ⟨200, 0⟩, ⟨100, 0⟩] :=
  c5_compute

/-- `wrap64` preserves residues modulo `2^64`. -/
theorem wrap64_emod (n : Int) : wrap64 n % 2 ^ 64 = n % 2 ^ 64 := by
  unfold wrap64
  omega

/-- `wrap64` lands in the signed 64-bit range. -/
theorem wrap64_range (n : Int) : -(2 ^ 63) ≤ wrap64 n ∧ wrap64 n < 2 ^ 63 := by
  unfold wrap64
  omega

/-- The wrapping `totalMs` fold is congruent modulo `2^64` to the exact sum
of the wait durations, from any accumulator. -/
theorem twm_emod (ts : List token) :
    ∀ acc : Int,
      (ts.foldl (fun a t => if t.type = tokenType.twait then wrap64 (a + t.Wait) else a) acc)
          % 2 ^ 64 =
        (acc + ((ts.filter fun t => decide (t.type = tokenType.twait)).map token.Wait).sum)
          % 2 ^ 64 := by
  induction ts with
  | nil => intro acc; simp
  | cons t ts ih =>
      intro acc
      rw [List.foldl_cons]
      by_cases h : t.type = tokenType.twait
      · rw [if_pos h, ih, List.filter_cons, if_pos (by simp [h])]
        simp only [List.map_cons, List.sum_cons]
        have hw := wrap64_emod (acc + t.Wait)
        omega
      · rw [if_neg h, ih, List.filter_cons, if_neg (by simp [h])]

/-- The wrapping `totalMs` fold stays in the signed 64-bit range. -/
theorem twm_range (ts : List token) :
    ∀ acc : Int, -(2 ^ 63) ≤ acc → acc < 2 ^ 63 →
      -(2 ^ 63) ≤
          ts.foldl (fun a t => if t.type = tokenType.twait then wrap64 (a + t.Wait) else a) acc ∧
        ts.foldl (fun a t => if t.type = tokenType.twait then wrap64 (a + t.Wait) else a) acc
          < 2 ^ 63 := by
  induction ts with
  | nil => intro acc h1 h2; exact ⟨h1, h2⟩
  | cons t ts ih =>
      intro acc h1 h2
      rw [List.foldl_cons]
      by_cases h : t.type = tokenType.twait
      · rw [if_pos h]
        exact ih _ (wrap64_range (acc + t.Wait)).1 (wrap64_range (acc + t.Wait)).2
      · rw [if_neg h]
        exact ih _ h1 h2

/-- Claim C7, counterexample: two `wait 9223372036854775807` instructions
(each a value `strconv.Atoi` accepts) make the Go `totalMs += t.Wait`
accumulation wrap to `-2`, not the exact sum `2^64 - 2`. -/
theorem c7_counterexample :
    (calculateStep [⟨tokenType.twait, "", 9223372036854775807⟩,
        ⟨tokenType.twait, "", 9223372036854775807⟩]).2 = -2 ∧
      (([⟨tokenType.twait, "", 9223372036854775807⟩,
          ⟨tokenType.twait, "", 9223372036854775807⟩].filter
            fun t => decide (t.type = tokenType.twait)).map token.Wait).sum
        = 18446744073709551614 ∧
      (-2 : Int) ≠ 18446744073709551614 := by decide

/-- Claim C7, amended: for every instruction sequence with at least one
positive wait, the `totalMs` returned by `calculateStep` is the exact integer
sum of all wait durations reduced modulo `2^64` into the signed 64-bit range
(Go's wrapping `int` accumulation); it equals the exact sum precisely
whenever that sum fits in a 64-bit signed integer — in particular for all
realistic millisecond durations. -/
theorem c7_amended (tokens : List token)
    (h : ∃ t ∈ tokens, t.type = tokenType.twait ∧ 0 < t.Wait) :
    (calculateStep tokens).2 % 2 ^ 64 =
        ((tokens.filter fun t => decide (t.type = tokenType.twait)).map token.Wait).sum
          % 2 ^ 64 ∧
      (intMin64 ≤ ((tokens.filter fun t => decide (t.type = tokenType.twait)).map
            token.Wait).sum →
        ((tokens.filter fun t => decide (t.type = tokenType.twait)).map token.Wait).sum
            ≤ intMax64 →
        (calculateStep tokens).2 =
          ((tokens.filter fun t => decide (t.type = tokenType.twait)).map token.Wait).sum) := by
  have hmod : totalWaitMs tokens % 2 ^ 64 =
      ((tokens.filter fun t => decide (t.type = tokenType.twait)).map token.Wait).sum
        % 2 ^ 64 := by
    simpa using twm_emod tokens 0
  have hrange : -(2 ^ 63) ≤ totalWaitMs tokens ∧ totalWaitMs tokens < 2 ^ 63 :=
    twm_range tokens 0 (by norm_num) (by norm_num)
  have hval : (calculateStep tokens).2 = totalWaitMs tokens := by simp [calculateStep]
  constructor
  · rw [hval]
    exact hmod
  · intro h1 h2
    rw [hval]
    unfold intMin64 at h1
    unfold intMax64 at h2
    omega

/-- Witness for `c7_amended` at a two-instruction sequence whose wait sum
fits in 64 bits, exercising the exactness branch. -/
theorem c7_witness :
    (calculateStep [⟨tokenType.twait, "", 500⟩, ⟨tokenType.tshow, "x", 1000⟩]).2 =
      (([⟨tokenType.twait, "", 500⟩, ⟨tokenType.tshow, "x", 1000⟩].filter
          fun t => decide (t.type = tokenType.twait)).map token.Wait).sum :=
  (c7_amended [⟨tokenType.twait, "", 500⟩, ⟨tokenType.tshow, "x", 1000⟩]
      ⟨⟨tokenType.twait, "", 500⟩, by decide, by decide, by decide⟩).2
    (by decide) (by decide)

/-- Claim C8, counterexample: with two positional arguments (three `os.Args`
entries) the program panics on `os.Args[3]` without printing the usage
message, and with fewer it prints the usage message but exits with code 0,
not a non-zero code. -/
theorem c8_counterexample :
    mainArgs ["prog", "in.svg", "anim.txt"] = argOutcome.indexPanic ∧
      mainArgs ["prog"] = argOutcome.usage 0 := by decide

/-- Claim C8, amended: with fewer than three `os.Args` entries (fewer than
two positional arguments) the program prints the usage message and returns
with exit code 0; with exactly three entries (two positional arguments) it
panics on the out-of-range access `os.Args[3]`; with four or more entries it
proceeds using the first three positional arguments. -/
theorem c8_amended (args : List String) :
    (args.length < 3 → mainArgs args = argOutcome.usage 0) ∧
      (args.length = 3 → mainArgs args = argOutcome.indexPanic) ∧
      (4 ≤ args.length →
        mainArgs args = argOutcome.run (args.getD 1 "") (args.getD 2 "") (args.getD 3 "")) := by
  refine ⟨fun h => by simp [mainArgs, h], fun h => ?_, fun h => ?_⟩
  · obtain ⟨a, b, c, rfl⟩ := List.length_eq_three.mp h
    simp [mainArgs]
  · rcases args with _ | ⟨a, _ | ⟨b, _ | ⟨c, _ | ⟨d, rest⟩⟩⟩⟩ <;> simp at h <;>
      simp [mainArgs, List.getD]

/-- Witness for `c8_amended` at argument lists of lengths 1, 3 and 4. -/
theorem c8_witness :
    mainArgs ["p"] = argOutcome.usage 0 ∧
      mainArgs ["p", "a", "b"] = argOutcome.indexPanic ∧
      mainArgs ["p", "a", "b", "c"] = argOutcome.run "a" "b" "c" :=
  ⟨(c8_amended ["p"]).1 (by decide), (c8_amended ["p", "a", "b"]).2.1 (by decide), by
    have h := (c8_amended ["p", "a", "b", "c"]).2.2 (by decide)
    simpa using h⟩

/-- Claim C9, counterexample: `strconv.Atoi` on an out-of-range integer field
reports an error (logged, so the `Bool` flag is `true`) but returns the
clamped maximum `int` value, so the malformed `wait` contributes
`9223372036854775807` — not zero — to `totalMs`. -/
theorem c9_counterexample :
    parseWait "wait 9223372036854775808" =
        some (true, ⟨tokenType.twait, "", 9223372036854775807⟩) ∧
      totalWaitMs [⟨tokenType.twait, "", 9223372036854775807⟩] ≠ 0 := by decide

/-- Claim C9, amended: a `wait` line whose second field is syntactically not
an integer is logged non-fatally and its token carries duration 0; a field
that is a well-formed integer beyond the 64-bit range is also logged
non-fatally but carries the clamped `MaxInt64`/`MinInt64` value instead of
zero. -/
theorem c9_amended (line : String) (pre f : List Char) (rest : List (List Char))
    (hsplit : splitSp line.toList = pre :: f :: rest)
    (hbad : atoiCore (String.mk f) = none) :
    parseWait line = some (true, ⟨tokenType.twait, "", 0⟩) := by
  simp only [String.toList] at hsplit
  simp [parseWait, hsplit, atoiVal, atoiOk, hbad]

/-- Witness for `c9_amended` at the line `wait abc`. -/
theorem c9_witness : parseWait "wait abc" = some (true, ⟨tokenType.twait, "", 0⟩) :=
  c9_amended "wait abc" ['w', 'a', 'i', 't'] ['a', 'b', 'c'] [] (by decide) (by decide)

/-- Claim C10, counterexample: a `show` or `hide` line without a second field
makes the tokenizer panic on `tokens[1]` (index out of range, modelled
`none`); no `ParseError` naming the line is produced. -/
theorem c10_counterexample : parseShow "show" = none ∧ parseHide "hide" = none := by decide

/-- Claim C10, amended: on any line whose whitespace split has no second
field, `parseShow` and `parseHide` panic with an index-out-of-range access
(modelled `none`) instead of failing with a `ParseError`. -/
theorem c10_amended (line : String) (h : (splitSp line.toList).length < 2) :
    parseShow line = none ∧ parseHide line = none := by
  match hs : splitSp line.toList with
  | [] =>
      simp only [String.toList] at hs
      simp [parseShow, parseHide, hs]
  | [f] =>
      simp only [String.toList] at hs
      simp [parseShow, parseHide, hs]
  | a :: b :: r =>
      rw [hs] at h
      exact absurd h (by simp)

/-- The counter-carrying emitter fold, started from any counter value and any
accumulated output, produces the accumulated output followed by the
position-indexed rendering of the remaining entries. -/
theorem genCss_aux (totalMs : Int) (kfs : List (String × List keyframe)) :
    ∀ (n : Nat) (s : String),
      (kfs.foldl (fun (st : Nat × String) p => (st.1 + 1, st.2 ++ cssEntry totalMs st.1 p))
          (n, s)).2 = s ++ cssEntriesFrom totalMs n kfs := by
  induction kfs with
  | nil =>
      intro n s
      simp [cssEntriesFrom, String.append_empty]
  | cons p rest ih =>
      intro n s
      rw [List.foldl_cons, ih]
      show s ++ cssEntry totalMs n p ++ cssEntriesFrom totalMs (n + 1) rest = _
      rw [String.append_assoc]
      rfl

/-- Claim C3: the CSS emitter is a pure function of the compiled timeline, the
total duration, and the iteration order over objects (the list order, the only
run-to-run variability of the Go `range` over the map): its output is exactly
the `<style>` block containing, for the `i`-th object of the iteration order,
rules whose animation name is `anim<i>`.  Hence two runs with the same
timeline and the same iteration order produce byte-identical CSS with
deterministically assigned animation-name counters. -/
theorem c3_theorem (kfs : List (String × List keyframe)) (totalMs : Int) :
    generateCssAnimation kfs totalMs =
      "<style>" ++ cssEntriesFrom totalMs 0 kfs ++ "</style>" := by
  simp only [generateCssAnimation]
  rw [genCss_aux totalMs kfs 0 ""]
  rw [String.empty_append]

/-- A successful association-list lookup yields a member of the list. -/
theorem lookupKf_mem {L : List (String × List keyframe)} {id : String} {v : List keyframe}
    (h : lookupKf L id = some v) : (id, v) ∈ L := by
  induction L with
  | nil => simp [lookupKf] at h
  | cons p rest ih =>
      obtain ⟨k, w⟩ := p
      rw [lookupKf] at h
      by_cases hk : k = id
      · rw [if_pos hk] at h
        obtain rfl := Option.some.inj h
        rw [hk]
        exact List.mem_cons_self _ _
      · rw [if_neg hk] at h
        exact List.mem_cons_of_mem _ (ih h)

/-- Lookups that succeed are unchanged by appending entries on the right. -/
theorem lookupKf_append_left {L : List (String × List keyframe)} {id : String}
    {v : List keyframe} (X : List (String × List keyframe))
    (h : lookupKf L id = some v) : lookupKf (L ++ X) id = some v := by
  induction L with
  | nil => simp [lookupKf] at h
  | cons p rest ih =>
      obtain ⟨k, w⟩ := p
      by_cases hk : k = id
      · simpa only [List.cons_append, lookupKf, if_pos hk] using
          (by simpa only [lookupKf, if_pos hk] using h : some w = some v)
      · simp only [List.cons_append, lookupKf, if_neg hk]
        exact ih (by simpa only [lookupKf, if_neg hk] using h)

/-- After appending a fresh entry for `id`, a lookup of `id` succeeds. -/
theorem lookupKf_append_self (L : List (String × List keyframe)) (id : String)
    (x : List keyframe) : ∃ w, lookupKf (L ++ [(id, x)]) id = some w := by
  induction L with
  | nil => exact ⟨x, by simp [lookupKf]⟩
  | cons p rest ih =>
      obtain ⟨k, w⟩ := p
      by_cases hk : k = id
      · exact ⟨w, by simp [lookupKf, hk]⟩
      · obtain ⟨w', hw'⟩ := ih
        exact ⟨w', by simpa [lookupKf, hk] using hw'⟩

/-- `appendTo` preserves the success of any lookup. -/
theorem lookupKf_appendTo {L : List (String × List keyframe)} {id' : String}
    (id : String) (kf : keyframe) (h : ∃ w, lookupKf L id' = some w) :
    ∃ w, lookupKf (appendTo L id kf) id' = some w := by
  induction L with
  | nil =>
      obtain ⟨w, hw⟩ := h
      simp [lookupKf] at hw
  | cons p rest ih =>
      obtain ⟨k, v⟩ := p
      by_cases hk : k = id
      · by_cases hk' : k = id'
        · subst hk'
          subst hk
          exact ⟨v ++ [kf], by simp [appendTo, lookupKf]⟩
        · obtain ⟨w, hw⟩ := h
          simp only [lookupKf, if_neg hk'] at hw
          exact ⟨w, by simp only [appendTo, if_pos hk, lookupKf, if_neg hk']; exact hw⟩
      · by_cases hk' : k = id'
        · exact ⟨v, by simp only [appendTo, if_neg hk, lookupKf, if_pos hk']⟩
        · obtain ⟨w, hw⟩ := h
          simp only [lookupKf, if_neg hk'] at hw
          obtain ⟨w', hw'⟩ := ih ⟨w, hw⟩
          exact ⟨w', by simp only [appendTo, if_neg hk, lookupKf, if_neg hk']; exact hw'⟩

/-- Double `appendTo` on a present key: every entry of the result satisfies
`Q` provided untouched entries can be weakened from `P` and the touched entry
supports appending the pair `[k1, k2]`. -/
theorem mem_appendTo2 (P Q : List keyframe → Prop) (L : List (String × List keyframe))
    (id : String) (k1 k2 : keyframe)
    (hW : ∀ v, P v → Q v)
    (hPQ : ∀ v, P v → Q (v ++ [k1, k2]))
    (hpres : ∃ w, lookupKf L id = some w)
    (hL : ∀ p ∈ L, P p.2) :
    ∀ p ∈ appendTo (appendTo L id k1) id k2, Q p.2 := by
  induction L with
  | nil =>
      obtain ⟨w, hw⟩ := hpres
      simp [lookupKf] at hw
  | cons q rest ih =>
      obtain ⟨k, v⟩ := q
      by_cases hk : k = id
      · intro p hp
        simp only [appendTo, if_pos hk] at hp
        rcases List.mem_cons.mp hp with h1 | h2
        · have hv : P v := hL (k, v) (List.mem_cons_self _ _)
          have : Q (v ++ [k1, k2]) := hPQ v hv
          rw [h1]
          simpa [List.append_assoc] using this
        · exact hW _ (hL p (List.mem_cons_of_mem _ h2))
      · intro p hp
        simp only [appendTo, if_neg hk] at hp
        rcases List.mem_cons.mp hp with h1 | h2
        · rw [h1]
          exact hW _ (hL (k, v) (List.mem_cons_self _ _))
        · have hpres' : ∃ w, lookupKf rest id = some w := by
            obtain ⟨w, hw⟩ := hpres
            simp only [lookupKf, if_neg hk] at hw
            exact ⟨w, hw⟩
          exact ih hpres' (fun p hp => hL p (List.mem_cons_of_mem _ hp)) p h2

/-- The head of a non-empty list survives appending on the right. -/
theorem headD_append {v : List keyframe} (h : v ≠ []) (l : List keyframe) (d : keyframe) :
    (v ++ l).headD d = v.headD d := by
  cases v with
  | nil => exact absurd rfl h
  | cons a rest => rfl

/-- Appending a `show`/`hide` pair to a present key preserves the claim-C6
entry property. -/
theorem invB_appendTo2 (L : List (String × List keyframe)) (id : String) (k1 k2 : keyframe)
    (hpres : ∃ w, lookupKf L id = some w)
    (hL : ∀ p ∈ L, p.2 ≠ [] ∧ (p.2.headD ⟨0, 0⟩).Stage = 0) :
    ∀ p ∈ appendTo (appendTo L id k1) id k2,
      p.2 ≠ [] ∧ (p.2.headD ⟨0, 0⟩).Stage = 0 := by
  exact mem_appendTo2 (fun v => v ≠ [] ∧ (v.headD ⟨0, 0⟩).Stage = 0)
    (fun v => v ≠ [] ∧ (v.headD ⟨0, 0⟩).Stage = 0) L id k1 k2 (fun v hv => hv)
    (fun v hv => ⟨by simp, by rw [headD_append hv.1]; exact hv.2⟩) hpres hL

/-- Seeding a fresh entry preserves the claim-C6 entry property. -/
theorem invB_seed (L : List (String × List keyframe)) (id : String)
    (hL : ∀ p ∈ L, p.2 ≠ [] ∧ (p.2.headD ⟨0, 0⟩).Stage = 0) :
    ∀ p ∈ L ++ [(id, [(⟨0, 0⟩ : keyframe)])],
      p.2 ≠ [] ∧ (p.2.headD ⟨0, 0⟩).Stage = 0 := by
  intro p hp
  rcases List.mem_append.mp hp with h1 | h2
  · exact hL p h1
  · have hpe : p = (id, [(⟨0, 0⟩ : keyframe)]) := List.mem_singleton.mp h2
    rw [hpe]
    exact ⟨by simp, rfl⟩

/-- One walk step preserves the claim-C6 invariant: lists stay non-empty and
keep their seeded stage-0 head. -/
theorem stepKf_invB (step : ℚ) (st : KState) (t : token) (h : InvB st) :
    InvB (stepKf step st t) := by
  obtain ⟨ty, tid, tw⟩ := t
  simp only [InvB] at h
  cases ty with
  | twait => simpa [stepKf, InvB] using h
  | tshow =>
      simp only [InvB]
      intro p hp
      cases hlk : lookupKf st.kfs tid with
      | some w =>
          refine invB_appendTo2 st.kfs tid ⟨st.cur, 0⟩ ⟨st.nxt, 1⟩ ⟨w, hlk⟩ h p ?_
          simpa [stepKf, hlk] using hp
      | none =>
          refine invB_appendTo2 _ tid ⟨st.cur, 0⟩ ⟨st.nxt, 1⟩
            (lookupKf_append_self st.kfs tid _) (invB_seed st.kfs tid h) p ?_
          simpa [stepKf, hlk] using hp
  | thide =>
      simp only [InvB]
      intro p hp
      cases hlk : lookupKf st.kfs tid with
      | some w =>
          refine invB_appendTo2 st.kfs tid ⟨st.cur, 1⟩ ⟨st.nxt, 0⟩ ⟨w, hlk⟩ h p ?_
          simpa [stepKf, hlk] using hp
      | none =>
          refine invB_appendTo2 _ tid ⟨st.cur, 1⟩ ⟨st.nxt, 0⟩
            (lookupKf_append_self st.kfs tid _) (invB_seed st.kfs tid h) p ?_
          simpa [stepKf, hlk] using hp

/-- The claim-C6 invariant holds after the whole walk. -/
theorem foldl_invB (step : ℚ) (ts : List token) :
    ∀ st, InvB st → InvB (ts.foldl (stepKf step) st) := by
  induction ts with
  | nil => intro st h; simpa using h
  | cons t ts ih =>
      intro st h
      rw [List.foldl_cons]
      exact ih _ (stepKf_invB step st t h)

/-- One walk step preserves the success of any lookup. -/
theorem stepKf_present (step : ℚ) (st : KState) (t : token) {id : String}
    (h : ∃ w, lookupKf st.kfs id = some w) :
    ∃ w, lookupKf (stepKf step st t).kfs id = some w := by
  obtain ⟨ty, tid, tw⟩ := t
  cases ty with
  | twait => simpa [stepKf] using h
  | tshow =>
      cases hlk : lookupKf st.kfs tid with
      | some w =>
          simp only [stepKf, hlk]
          exact lookupKf_appendTo _ _ (lookupKf_appendTo _ _ h)
      | none =>
          simp only [stepKf, hlk]
          obtain ⟨w, hw⟩ := h
          exact lookupKf_appendTo _ _
            (lookupKf_appendTo _ _ ⟨w, lookupKf_append_left _ hw⟩)
  | thide =>
      cases hlk : lookupKf st.kfs tid with
      | some w =>
          simp only [stepKf, hlk]
          exact lookupKf_appendTo _ _ (lookupKf_appendTo _ _ h)
      | none =>
          simp only [stepKf, hlk]
          obtain ⟨w, hw⟩ := h
          exact lookupKf_appendTo _ _
            (lookupKf_appendTo _ _ ⟨w, lookupKf_append_left _ hw⟩)

/-- A `show`/`hide` step establishes that its object is present. -/
theorem stepKf_seeds (step : ℚ) (st : KState) {t : token}
    (hty : t.type = tokenType.tshow ∨ t.type = tokenType.thide) :
    ∃ w, lookupKf (stepKf step st t).kfs t.Id = some w := by
  obtain ⟨ty, tid, tw⟩ := t
  cases ty with
  | twait => simp at hty
  | tshow =>
      cases hlk : lookupKf st.kfs tid with
      | some w =>
          simp only [stepKf, hlk]
          exact lookupKf_appendTo _ _ (lookupKf_appendTo _ _ ⟨w, hlk⟩)
      | none =>
          simp only [stepKf, hlk]
          exact lookupKf_appendTo _ _
            (lookupKf_appendTo _ _ (lookupKf_append_self st.kfs tid [⟨0, 0⟩]))
  | thide =>
      cases hlk : lookupKf st.kfs tid with
      | some w =>
          simp only [stepKf, hlk]
          exact lookupKf_appendTo _ _ (lookupKf_appendTo _ _ ⟨w, hlk⟩)
      | none =>
          simp only [stepKf, hlk]
          exact lookupKf_appendTo _ _
            (lookupKf_appendTo _ _ (lookupKf_append_self st.kfs tid [⟨0, 0⟩]))

/-- The whole walk preserves the success of any lookup. -/
theorem foldl_present (step : ℚ) (ts : List token) {id : String} :
    ∀ st, (∃ w, lookupKf st.kfs id = some w) →
      ∃ w, lookupKf ((ts.foldl (stepKf step) st).kfs) id = some w := by
  induction ts with
  | nil => intro st h; simpa using h
  | cons t ts ih =>
      intro st h
      rw [List.foldl_cons]
      exact ih _ (stepKf_present step st t h)

/-- Every object referenced by a `show` or `hide` instruction is present in
the walk's final map. -/
theorem referenced_present (step : ℚ) (ts : List token) {t : token}
    (hty : t.type = tokenType.tshow ∨ t.type = tokenType.thide) :
    t ∈ ts → ∀ st, ∃ w, lookupKf ((ts.foldl (stepKf step) st).kfs) t.Id = some w := by
  induction ts with
  | nil => intro hmem; simp at hmem
  | cons u rest ih =>
      intro hmem st
      rw [List.foldl_cons]
      rcases List.mem_cons.mp hmem with h1 | h2
      · subst h1
        exact foldl_present step rest _ (stepKf_seeds step st hty)
      · exact ih h2 _

/-- Lookup commutes with mapping a function over the values. -/
theorem lookupKf_mapSnd (L : List (String × List keyframe)) (id : String)
    (f : List keyframe → List keyframe) :
    lookupKf (L.map fun p => (p.1, f p.2)) id = (lookupKf L id).map f := by
  induction L with
  | nil => rfl
  | cons p rest ih =>
      obtain ⟨k, v⟩ := p
      by_cases hk : k = id <;> simp [lookupKf, hk, ih]

/-- Claim C6: every object referenced by at least one `show` or `hide`
instruction has a non-empty compiled keyframe list whose first entry has
stage 0 (the seed) and whose last entry has stage 100 (the closing
keyframe). -/
theorem c6_theorem (tokens : List token) (step : ℚ) (id : String)
    (h : ∃ t ∈ tokens, (t.type = tokenType.tshow ∨ t.type = tokenType.thide) ∧ t.Id = id) :
    ∃ v, lookupKf (calculateKeyframes tokens step) id = some v ∧ v ≠ [] ∧
      (v.headD ⟨0, 0⟩).Stage = 0 ∧ (v.getLastD ⟨0, 0⟩).Stage = 100 := by
  obtain ⟨t, hmem, hty, hid⟩ := h
  subst hid
  obtain ⟨w, hw⟩ := referenced_present step tokens hty hmem ⟨0, 0 + step, []⟩
  have hInv : InvB (tokens.foldl (stepKf step) ⟨0, 0 + step, []⟩) :=
    foldl_invB step tokens _ (by intro p hp; simp at hp)
  obtain ⟨hne, hhd⟩ := hInv _ (lookupKf_mem hw)
  refine ⟨closeKf w, ?_, ?_, ?_, ?_⟩
  · simp only [calculateKeyframes]
    rw [lookupKf_mapSnd _ _ closeKf, hw]
    rfl
  · simp [closeKf]
  · rw [closeKf, headD_append hne]
    exact hhd
  · rw [closeKf, List.getLastD_concat]

/-- Witness for `c6_theorem` at a one-instruction script referencing `obj`. -/
theorem c6_witness :
    ∃ v, lookupKf (calculateKeyframes [⟨tokenType.thide, "obj", 1000⟩] 5) "obj" = some v ∧
      v ≠ [] ∧ (v.headD ⟨0, 0⟩).Stage = 0 ∧ (v.getLastD ⟨0, 0⟩).Stage = 100 :=
  c6_theorem [⟨tokenType.thide, "obj", 1000⟩] 5 "obj"
    ⟨⟨tokenType.thide, "obj", 1000⟩, by decide, by decide, rfl⟩

/-- Weakening the bound of `ascBnd`. -/
theorem ascBnd_weaken {c d : ℚ} (hcd : c ≤ d) : ∀ l, ascBnd c l → ascBnd d l := by
  intro l
  induction l with
  | nil => intro h; exact h
  | cons x rest ih =>
      cases rest with
      | nil =>
          intro h
          exact le_trans h hcd
      | cons y rest2 =>
          intro h
          have h' : x ≤ y ∧ ascBnd c (y :: rest2) := h
          exact ⟨h'.1, ih h'.2⟩

/-- Appending the (weakened) bound itself keeps the list ascending and
bounded. -/
theorem ascBnd_snoc {c d : ℚ} (hcd : c ≤ d) : ∀ l, ascBnd c l → ascBnd d (l ++ [d]) := by
  intro l
  induction l with
  | nil => intro _; exact le_refl d
  | cons x rest ih =>
      cases rest with
      | nil =>
          intro h
          exact ⟨le_trans h hcd, le_refl d⟩
      | cons y rest2 =>
          intro h
          have h' : x ≤ y ∧ ascBnd c (y :: rest2) := h
          exact ⟨h'.1, ih h'.2⟩

/-- Appending a complete pair to an even-length list extends the selected
stages by the pair's first stage. -/
theorem fstStages_append_pair :
    ∀ l : List keyframe, l.length % 2 = 0 → ∀ k1 k2 : keyframe,
      fstStages (l ++ [k1, k2]) = fstStages l ++ [k1.Stage]
  | [], _, _, _ => rfl
  | [a], h, _, _ => by simp at h
  | a :: b :: rest, h, k1, k2 => by
      have h' : rest.length % 2 = 0 := by
        simp only [List.length_cons] at h
        omega
      show a.Stage :: fstStages (rest ++ [k1, k2]) = a.Stage :: (fstStages rest ++ [k1.Stage])
      rw [fstStages_append_pair rest h' k1 k2]

/-- Appending one keyframe to an even-length list extends the selected stages
by its stage. -/
theorem fstStages_append_one :
    ∀ l : List keyframe, l.length % 2 = 0 → ∀ k : keyframe,
      fstStages (l ++ [k]) = fstStages l ++ [k.Stage]
  | [], _, _ => rfl
  | [a], h, _ => by simp at h
  | a :: b :: rest, h, k => by
      have h' : rest.length % 2 = 0 := by
        simp only [List.length_cons] at h
        omega
      show a.Stage :: fstStages (rest ++ [k]) = a.Stage :: (fstStages rest ++ [k.Stage])
      rw [fstStages_append_one rest h' k]

/-- `cursorStages` after appending a `show`/`hide` pair to an odd-length
(seed plus pairs) list. -/
theorem cursorStages_append_pair (v : List keyframe) (hodd : v.length % 2 = 1)
    (k1 k2 : keyframe) : cursorStages (v ++ [k1, k2]) = cursorStages v ++ [k1.Stage] := by
  cases v with
  | nil => simp at hodd
  | cons s rest =>
      have he : rest.length % 2 = 0 := by
        simp only [List.length_cons] at hodd
        omega
      show s.Stage :: fstStages (rest ++ [k1, k2]) = s.Stage :: (fstStages rest ++ [k1.Stage])
      rw [fstStages_append_pair rest he k1 k2]

/-- `cursorStages` after appending the closing keyframe to an odd-length
list. -/
theorem cursorStages_append_one (v : List keyframe) (hodd : v.length % 2 = 1)
    (k : keyframe) : cursorStages (v ++ [k]) = cursorStages v ++ [k.Stage] := by
  cases v with
  | nil => simp at hodd
  | cons s rest =>
      have he : rest.length % 2 = 0 := by
        simp only [List.length_cons] at hodd
        omega
      show s.Stage :: fstStages (rest ++ [k]) = s.Stage :: (fstStages rest ++ [k.Stage])
      rw [fstStages_append_one rest he k]

/-- An ascending bounded list is in particular a `≤`-chain. -/
theorem ascBnd_chain {c : ℚ} : ∀ l, ascBnd c l → List.Chain' (· ≤ ·) l := by
  intro l
  induction l with
  | nil => intro _; exact List.chain'_nil
  | cons x rest ih =>
      cases rest with
      | nil => intro _; exact List.chain'_singleton x
      | cons y rest2 =>
          intro h
          have h' : x ≤ y ∧ ascBnd c (y :: rest2) := h
          rw [List.chain'_cons]
          exact ⟨h'.1, ih h'.2⟩

/-- Appending a `show`/`hide` pair (first stage at the cursor `c`) to a
present key preserves the claim-C4 entry property. -/
theorem invM_appendTo2 (c n : ℚ) (L : List (String × List keyframe)) (id : String)
    (o1 o2 : ℚ) (hpres : ∃ w, lookupKf L id = some w)
    (hL : ∀ p ∈ L, p.2.length % 2 = 1 ∧ ascBnd c (cursorStages p.2)) :
    ∀ p ∈ appendTo (appendTo L id ⟨c, o1⟩) id ⟨n, o2⟩,
      p.2.length % 2 = 1 ∧ ascBnd c (cursorStages p.2) := by
  refine mem_appendTo2 (fun v => v.length % 2 = 1 ∧ ascBnd c (cursorStages v))
    (fun v => v.length % 2 = 1 ∧ ascBnd c (cursorStages v)) L id ⟨c, o1⟩ ⟨n, o2⟩
    (fun v hv => hv) ?_ hpres hL
  intro v hv
  constructor
  · have h1 := hv.1
    simp only [List.length_append, List.length_cons, List.length_nil]
    omega
  · rw [cursorStages_append_pair v hv.1]
    exact ascBnd_snoc (le_refl c) _ hv.2

/-- Seeding a fresh entry preserves the claim-C4 entry property when the
cursor is non-negative. -/
theorem invM_seed (c : ℚ) (hc : 0 ≤ c) (L : List (String × List keyframe)) (id : String)
    (hL : ∀ p ∈ L, p.2.length % 2 = 1 ∧ ascBnd c (cursorStages p.2)) :
    ∀ p ∈ L ++ [(id, [(⟨0, 0⟩ : keyframe)])],
      p.2.length % 2 = 1 ∧ ascBnd c (cursorStages p.2) := by
  intro p hp
  rcases List.mem_append.mp hp with h1 | h2
  · exact hL p h1
  · rw [List.mem_singleton.mp h2]
    refine ⟨rfl, ?_⟩
    show (0 : ℚ) ≤ c
    exact hc

/-- One walk step preserves the claim-C4 invariant, given non-negative wait
durations and a non-negative step. -/
theorem stepKf_invM (step : ℚ) (hstep : 0 ≤ step) (st : KState) (t : token)
    (hwait : t.type = tokenType.twait → 0 ≤ t.Wait)
    (h : InvM st) : InvM (stepKf step st t) := by
  obtain ⟨hcur, hkfs⟩ := h
  obtain ⟨ty, tid, tw⟩ := t
  cases ty with
  | twait =>
      have htw : (0 : ℚ) ≤ (tw : ℚ) := by exact_mod_cast hwait rfl
      have hadv : (0 : ℚ) ≤ (tw : ℚ) / 1000 * step :=
        mul_nonneg (div_nonneg htw (by norm_num)) hstep
      constructor
      · show (0 : ℚ) ≤ st.cur + (tw : ℚ) / 1000 * step
        exact add_nonneg hcur hadv
      · intro p hp
        have hp' : p ∈ st.kfs := by simpa [stepKf] using hp
        obtain ⟨h1, h2⟩ := hkfs p hp'
        refine ⟨h1, ascBnd_weaken ?_ _ h2⟩
        show st.cur ≤ st.cur + (tw : ℚ) / 1000 * step
        exact le_add_of_nonneg_right hadv
  | tshow =>
      constructor
      · exact hcur
      · intro p hp
        cases hlk : lookupKf st.kfs tid with
        | some w =>
            have hp' : p ∈ appendTo (appendTo st.kfs tid ⟨st.cur, 0⟩) tid ⟨st.nxt, 1⟩ := by
              simpa [stepKf, hlk] using hp
            exact invM_appendTo2 st.cur st.nxt st.kfs tid 0 1 ⟨w, hlk⟩ hkfs p hp'
        | none =>
            have hp' : p ∈ appendTo
                (appendTo (st.kfs ++ [(tid, [(⟨0, 0⟩ : keyframe)])]) tid ⟨st.cur, 0⟩)
                tid ⟨st.nxt, 1⟩ := by
              simpa [stepKf, hlk] using hp
            exact invM_appendTo2 st.cur st.nxt _ tid 0 1
              (lookupKf_append_self st.kfs tid _) (invM_seed st.cur hcur st.kfs tid hkfs) p hp'
  | thide =>
      constructor
      · exact hcur
      · intro p hp
        cases hlk : lookupKf st.kfs tid with
        | some w =>
            have hp' : p ∈ appendTo (appendTo st.kfs tid ⟨st.cur, 1⟩) tid ⟨st.nxt, 0⟩ := by
              simpa [stepKf, hlk] using hp
            exact invM_appendTo2 st.cur st.nxt st.kfs tid 1 0 ⟨w, hlk⟩ hkfs p hp'
        | none =>
            have hp' : p ∈ appendTo
                (appendTo (st.kfs ++ [(tid, [(⟨0, 0⟩ : keyframe)])]) tid ⟨st.cur, 1⟩)
                tid ⟨st.nxt, 0⟩ := by
              simpa [stepKf, hlk] using hp
            exact invM_appendTo2 st.cur st.nxt _ tid 1 0
              (lookupKf_append_self st.kfs tid _) (invM_seed st.cur hcur st.kfs tid hkfs) p hp'

/-- The claim-C4 invariant holds after the whole walk. -/
theorem foldl_invM (step : ℚ) (hstep : 0 ≤ step) (ts : List token)
    (hw : ∀ t ∈ ts, t.type = tokenType.twait → 0 ≤ t.Wait) :
    ∀ st, InvM st → InvM (ts.foldl (stepKf step) st) := by
  induction ts with
  | nil => intro st h; simpa using h
  | cons t ts ih =>
      intro st h
      rw [List.foldl_cons]
      exact ih (fun u hu => hw u (List.mem_cons_of_mem _ hu)) _
        (stepKf_invM step hstep st t (hw t (List.mem_cons_self _ _)) h)

/-- Evaluation of the compiler on the two-`show` script of claim C4. -/
theorem c4_compute :
    calculateStep c4tokens = (some 100, 1000) ∧
      lookupKf (calculateKeyframes c4tokens 100) "a" =
        some [⟨0, 0⟩, ⟨0, 0⟩, ⟨100, 1⟩, ⟨0, 0⟩, ⟨100, 1⟩, ⟨100, 1⟩] := by
  constructor
  · have htot : totalWaitMs c4tokens = 1000 := by decide
    simp only [calculateStep, htot]
    norm_num
  · norm_num [calculateKeyframes, c4tokens, List.foldl, stepKf, lookupKf, appendTo,
      closeKf, List.getLastD]

/-- Claim C4, counterexample: for the script `show a` / `show a` / `wait 1000`
(accepted by the compiler, `step = 100`), object `a`'s emitted keyframe list
is `[{0,0},{0,0},{100,1},{0,0},{100,1},{100,1}]`, whose stage sequence
`[0,0,100,0,100,100]` is not non-decreasing: the second `show` pair starts
again at the cursor, below the previous pair's `nextStage` keyframe. -/
theorem c4_counterexample :
    calculateStep c4tokens = (some 100, 1000) ∧
      lookupKf (calculateKeyframes c4tokens 100) "a" =
        some [⟨0, 0⟩, ⟨0, 0⟩, ⟨100, 1⟩, ⟨0, 0⟩, ⟨100, 1⟩, ⟨100, 1⟩] ∧
      ¬ List.Chain' (· ≤ ·)
        (([⟨0, 0⟩, ⟨0, 0⟩, ⟨100, 1⟩, ⟨0, 0⟩, ⟨100, 1⟩, ⟨100, 1⟩] : List keyframe).map
          keyframe.Stage) := by
  refine ⟨c4_compute.1, c4_compute.2, ?_⟩
  simp only [List.map_cons, List.map_nil, List.chain'_cons, List.chain'_singleton]
  norm_num

/-- Claim C4, amended: in emission order, the stages of the keyframes stamped
at the running cursor — the seed and the first keyframe of every
`show`/`hide` pair, i.e. the cursor-position subsequence without its final
closing entry — are non-decreasing, for any script with non-negative wait
durations compiled with a positive total duration.  The rest of the claim
fails on the code: each pair's second keyframe at `nextStage = cursor + step`
can overshoot the next pair's first keyframe (the counterexample), and the
closing stage-100 keyframe can lie below the final cursor stamps, because
float32 rounding can push the cursor above 100 (e.g. `totalMs = 3`, where the
cursor after `wait 3` is `100.00000762939453`).  The proof uses only that
each `wait` advances the cursor by a non-negative amount — true of the
rounded float32 deltas as well, since IEEE rounding preserves sign and
float32 addition of a non-negative delta to a stored float is monotone — so
the conclusion is insensitive to the exact-`ℚ` modelling of the arithmetic. -/
theorem c4_amended (tokens : List token)
    (hw : ∀ t ∈ tokens, t.type = tokenType.twait → 0 ≤ t.Wait)
    (hpos : 0 < (calculateStep tokens).2)
    (step : ℚ) (hstep : (calculateStep tokens).1 = some step)
    (id : String) (v : List keyframe)
    (hv : lookupKf (calculateKeyframes tokens step) id = some v) :
    List.Chain' (· ≤ ·) ((cursorStages v).dropLast) := by
  have htotpos : 0 < totalWaitMs tokens := by simpa [calculateStep] using hpos
  have htot0 : totalWaitMs tokens ≠ 0 := ne_of_gt htotpos
  have hstep_eq : step = 1000 / (totalWaitMs tokens : ℚ) * 100 := by
    simp only [calculateStep] at hstep
    simp [htot0] at hstep
    exact hstep.symm
  have hposq : (0 : ℚ) < (totalWaitMs tokens : ℚ) := by exact_mod_cast htotpos
  have hstep_nonneg : 0 ≤ step := by
    rw [hstep_eq]
    exact mul_nonneg (div_nonneg (by norm_num) hposq.le) (by norm_num)
  have hInv : InvM (tokens.foldl (stepKf step) ⟨0, 0 + step, []⟩) := by
    refine foldl_invM step hstep_nonneg tokens hw _ ⟨le_refl 0, ?_⟩
    intro p hp
    simp at hp
  simp only [calculateKeyframes] at hv
  rw [lookupKf_mapSnd _ _ closeKf] at hv
  cases hlk : lookupKf (tokens.foldl (stepKf step) ⟨0, 0 + step, []⟩).kfs id with
  | none =>
      rw [hlk] at hv
      simp at hv
  | some w =>
      rw [hlk] at hv
      simp only [Option.map_some'] at hv
      obtain rfl := Option.some.inj hv
      obtain ⟨hodd, hasc⟩ := hInv.2 _ (lookupKf_mem hlk)
      rw [closeKf, cursorStages_append_one w hodd, List.dropLast_concat]
      exact ascBnd_chain _ hasc

/-- Witness for `c4_amended` at the script `show a` / `wait 1000`. -/
theorem c4_witness :
    List.Chain' (· ≤ ·)
      ((cursorStages [⟨0, 0⟩, ⟨0, 0⟩, ⟨100, 1⟩, ⟨100, 1⟩]).dropLast) := by
  refine c4_amended [⟨tokenType.tshow, "a", 1000⟩, ⟨tokenType.twait, "", 1000⟩]
    (by decide) (by decide) 100 ?_ "a" _ ?_
  · have htot : totalWaitMs [⟨tokenType.tshow, "a", 1000⟩, ⟨tokenType.twait, "", 1000⟩]
        = 1000 := by decide
    simp only [calculateStep, htot]
    norm_num
  · norm_num [calculateKeyframes, List.foldl, stepKf, lookupKf, appendTo, closeKf,
      List.getLastD]

/-- Witness for `c10_amended` at the bare line `show`. -/
theorem c10_witness : parseShow "show" = none ∧ parseHide "show" = none :=
  c10_amended "show" (by decide)
